import Mathlib

/-!
Verification of the picobot agent runtime core against its source.

Shallow embedding of the Go sources under `internal/` and the channel
adapter: pure Lean functions mirror the Go functions; Go byte strings are
modelled as Lean `String`/`List Char` (the sources only manipulate ASCII
in the validated positions), Go `int` as `Int` or `Nat` as noted at each
definition, `time.Duration` as nanoseconds in `Nat`.  A function that can
return before spawning a process or touching the network returns
`Except String _` / `Option _`: the `error`/`none` constructor means the
Go function returned an error at that point and no external effect
happened; `ok` carries the data the effect would be invoked with.
-/

namespace Picobot

/-- `pat` occurs as a contiguous sublist of the text. -/
def containsList (pat : List Char) : List Char → Bool
  | [] => pat.isEmpty
  | c :: rest => pat.isPrefixOf (c :: rest) || containsList pat rest

/-- Model of Go `strings.Contains s pat` (substring containment). -/
def containsSub (s pat : String) : Bool :=
  containsList pat.toList s.toList

/-- Model of Go `strings.HasPrefix`. -/
def hasPrefixStr (s pat : String) : Bool :=
  pat.toList.isPrefixOf s.toList

/-- Model of Go `strings.ToLower` (the classifier inputs are ASCII). -/
def toLowerStr (s : String) : String :=
  String.mk (s.toList.map Char.toLower)

/-- Split at every character satisfying `p`, keeping empty pieces. -/
def splitPredList (p : Char → Bool) : List Char → List (List Char)
  | [] => [[]]
  | c :: rest =>
    if p c then [] :: splitPredList p rest
    else
      match splitPredList p rest with
      | h :: t => (c :: h) :: t
      | [] => [[c]]

/-- Model of Go `strings.Fields`: substrings separated by runs of whitespace. -/
def goFields (s : String) : List String :=
  ((splitPredList Char.isWhitespace s.toList).map String.mk).filter (fun p => p ≠ "")

/-- Model of Go `path/filepath.Base` for slash-separated paths:
strip trailing slashes, then keep the last component; "" gives ".",
an all-slash path gives "/". -/
def filepathBase (s : String) : String :=
  if s = "" then "."
  else
    let cs := s.toList
    let trimmed := (cs.reverse.dropWhile (fun c => c = '/')).reverse
    if trimmed = [] then "/"
    else String.mk ((trimmed.reverse.takeWhile (fun c => c ≠ '/')).reverse)

/-- Path components of `filepath.Clean` applied to an absolute slash path:
empty and "." components vanish, ".." pops (and is absorbed at the root). -/
def cleanAbsComponents (s : String) : List String :=
  ((splitPredList (fun c => c = '/') s.toList).map String.mk).foldl
    (fun acc c =>
      if c = "" ∨ c = "." then acc
      else if c = ".." then acc.dropLast
      else acc ++ [c]) []

/-- Length of the common prefix of two component lists. -/
def commonPrefixLen : List String → List String → Nat
  | a :: as, b :: bs => if a = b then commonPrefixLen as bs + 1 else 0
  | _, _ => 0

/-- Model of Go `filepath.Rel base targ`, restricted to what the exec
validator passes it: `targ` is always absolute there.  For two absolute
paths Go's `Rel` never fails; for an absolute target and a relative base
it returns an error, modelled as `none`.  (The both-relative case cannot
be reached from the validator and is mapped to `none` as well.) -/
def goFilepathRel (base targ : String) : Option String :=
  if hasPrefixStr base "/" && hasPrefixStr targ "/" then
    let b := cleanAbsComponents base
    let t := cleanAbsComponents targ
    let com := commonPrefixLen b t
    let rest := List.replicate (b.length - com) ".." ++ t.drop com
    some (if rest = [] then "." else String.intercalate "/" rest)
  else none

namespace tools

/-- `dangerous` program basenames, `internal/agent/tools/exec.go`. -/
def dangerous : List String :=
  ["rm", "sudo", "dd", "mkfs", "shutdown", "reboot",
   "bash", "sh", "zsh", "nc", "netcat", "nmap"]

/-- `interpreters`, `internal/agent/tools/exec.go`. -/
def interpreters : List String :=
  ["python", "python3", "perl", "ruby", "node"]

/-- `packageManagers`, `internal/agent/tools/exec.go`. -/
def packageManagers : List String :=
  ["pip", "pip3", "uv"]

/-- Lowercased basename used by all three program classifiers. -/
def progKey (prog : String) : String :=
  toLowerStr (filepathBase prog)

/-- `isDangerousProg`, `internal/agent/tools/exec.go`. -/
def isDangerousProg (prog : String) : Bool :=
  dangerous.contains (progKey prog)

/-- `isInterpreter`, `internal/agent/tools/exec.go`. -/
def isInterpreter (prog : String) : Bool :=
  interpreters.contains (progKey prog)

/-- `isPackageManager`, `internal/agent/tools/exec.go`. -/
def isPackageManager (prog : String) : Bool :=
  packageManagers.contains (progKey prog)

/-- A JSON value inside the `cmd` array: a string, or anything else. -/
inductive JVal where
  | str (s : String)
  | nonString
deriving DecidableEq, Repr

/-- The value bound to the `cmd` key of the args map: a JSON string, a
JSON array, or a value of any other type. -/
inductive CmdVal where
  | str (s : String)
  | arr (elems : List JVal)
  | other
deriving DecidableEq, Repr

/-- Extract the strings of a `cmd` array; `none` when a non-string occurs
(the `"exec: cmd array must contain strings only"` case). -/
def argStrings : List JVal → Option (List String)
  | [] => some []
  | JVal.str s :: rest => (argStrings rest).map (s :: ·)
  | JVal.nonString :: _ => none

end tools

namespace ExecA

/-!
First `ExecTool` variant of `internal/agent/tools/exec.go` (the array-only
validator, lines 1–225): string commands are rejected outright and the
generic unsafe-argument predicate also rejects `/`.
-/

open tools

/-- `hasUnsafeArg`, first variant (rejects `/`, `..`, `~` and the shell
meta-characters). -/
def hasUnsafeArg (s : String) : Bool :=
  containsSub s "/" || containsSub s ".." || containsSub s "~" ||
  containsSub s ";" || containsSub s "&" || containsSub s "|" ||
  containsSub s ">" || containsSub s "<" || containsSub s "$" ||
  containsSub s "`"

/-- The per-argument validation loop of `Execute` (first variant), over
`argv[1:]`.  `cur` is the argv slice (argument rewriting mutates it),
`idx` the current index; `fuel` stands for the loop bound (callers pass
`cur.length`, which dominates the remaining iterations).  `.ok` returns
the final argv the process would be spawned with; `.error` is the
validation error returned before any spawn. -/
def validateLoop (allowedDir : String) (interpM pkgM : Bool) :
    Nat → List String → Nat → Except String (List String)
  | 0, cur, _ => .ok cur
  | fuel + 1, cur, idx =>
    if cur.length ≤ idx then .ok cur
    else
      let a := cur.getD idx ""
      if pkgM then
        if containsSub a ".." then
          .error ("exec: argument '" ++ a ++ "' looks unsafe")
        else validateLoop allowedDir interpM pkgM fuel cur (idx + 1)
      else if interpM ∧ 2 ≤ idx ∧ 3 ≤ cur.length ∧ cur.getD 1 "" = "-c" ∧ idx = 2 then
        validateLoop allowedDir interpM pkgM fuel cur (idx + 1)
      else if interpM ∧ idx = 1 ∧ a ≠ "-c" ∧ ¬ containsSub a ".." then
        if hasPrefixStr a "/" ∧ allowedDir ≠ "" then
          match goFilepathRel allowedDir a with
          | some rel =>
            if hasPrefixStr rel ".." then
              .error ("exec: script path '" ++ a ++ "' is outside workspace")
            else validateLoop allowedDir interpM pkgM fuel (cur.set idx rel) (idx + 1)
          | none => .error ("exec: script path '" ++ a ++ "' is outside workspace")
        else validateLoop allowedDir interpM pkgM fuel cur (idx + 1)
      else if hasUnsafeArg a then
        .error ("exec: argument '" ++ a ++ "' looks unsafe")
      else validateLoop allowedDir interpM pkgM fuel cur (idx + 1)

/-- `ExecTool.Execute`, first variant, up to the spawn: `allowedDir` is the
tool's workspace restriction, `cmd` the value bound to the `"cmd"` key
(`none` when the key is absent).  `.ok argv` means validation passed and
`exec.CommandContext(_, argv[0], argv[1:]...)` would run; `.error e` means
`Execute` returned error `e` and no process was spawned. -/
def execute (allowedDir : String) (cmd : Option CmdVal) : Except String (List String) :=
  match cmd with
  | none => .error "exec: 'cmd' argument required"
  | some (CmdVal.str _) => .error "exec: string commands are disallowed; use array form"
  | some CmdVal.other => .error "exec: unsupported cmd type"
  | some (CmdVal.arr elems) =>
    if elems = [] then .error "exec: empty cmd array"
    else
      match argStrings elems with
      | none => .error "exec: cmd array must contain strings only"
      | some argv =>
        let prog := argv.headD ""
        if isDangerousProg prog then
          .error ("exec: program '" ++ prog ++ "' is disallowed")
        else
          validateLoop allowedDir (isInterpreter prog) (isPackageManager prog)
            argv.length argv 1

end ExecA

namespace ExecB

/-!
Second `ExecTool` variant of `internal/agent/tools/exec.go` (the legacy
string-accepting validator, lines 226–461): a string `cmd` is split on
whitespace, the `uv run pip` misuse is specially rejected, the generic
unsafe-argument predicate does not reject `/`, and interpreter arguments
past the script path are all allowed.
-/

open tools

/-- `hasUnsafeArg`, second variant (no `/` check). -/
def hasUnsafeArg (s : String) : Bool :=
  containsSub s ".." || containsSub s "~" ||
  containsSub s ";" || containsSub s "&" || containsSub s "|" ||
  containsSub s ">" || containsSub s "<" || containsSub s "$" ||
  containsSub s "`"

/-- The per-argument validation loop of the second `Execute` variant;
conventions as in `ExecA.validateLoop`. -/
def validateLoop (allowedDir : String) (interpM pkgM : Bool) :
    Nat → List String → Nat → Except String (List String)
  | 0, cur, _ => .ok cur
  | fuel + 1, cur, idx =>
    if cur.length ≤ idx then .ok cur
    else
      let a := cur.getD idx ""
      if pkgM then
        if containsSub a ".." then
          .error ("exec: argument '" ++ a ++ "' looks unsafe")
        else validateLoop allowedDir interpM pkgM fuel cur (idx + 1)
      else if interpM then
        if idx = 1 ∧ containsSub a ".." then
          .error ("exec: argument '" ++ a ++ "' looks unsafe")
        else if idx = 1 ∧ hasPrefixStr a "/" ∧ allowedDir ≠ "" then
          match goFilepathRel allowedDir a with
          | some rel =>
            if hasPrefixStr rel ".." then
              .error ("exec: script path '" ++ a ++ "' is outside workspace")
            else validateLoop allowedDir interpM pkgM fuel (cur.set idx rel) (idx + 1)
          | none => .error ("exec: script path '" ++ a ++ "' is outside workspace")
        else validateLoop allowedDir interpM pkgM fuel cur (idx + 1)
      else if hasUnsafeArg a then
        .error ("exec: argument '" ++ a ++ "' looks unsafe")
      else validateLoop allowedDir interpM pkgM fuel cur (idx + 1)

/-- The tail of the second `Execute` variant once argv is known: the
dangerous-program check, the `uv run pip` misuse check, then the
per-argument loop. -/
def executeArgv (allowedDir : String) (argv : List String) : Except String (List String) :=
  let prog := argv.headD ""
  if isDangerousProg prog then
    .error ("exec: program '" ++ prog ++ "' is disallowed")
  else if toLowerStr (filepathBase prog) = "uv" ∧ 3 ≤ argv.length ∧
      argv.getD 1 "" = "run" ∧ argv.getD 2 "" = "pip" then
    .error "exec: wrong syntax 'uv run pip install'. Use [\"uv\", \"pip\", \"install\", ...] instead"
  else
    validateLoop allowedDir (isInterpreter prog) (isPackageManager prog)
      argv.length argv 1

/-- `ExecTool.Execute`, second (legacy) variant, up to the spawn.  A string
`cmd` is split on whitespace into argv; the `uv run pip` shape is rejected
with a corrective message before per-argument validation. -/
def execute (allowedDir : String) (cmd : Option CmdVal) : Except String (List String) :=
  match cmd with
  | none => .error "exec: 'cmd' argument required"
  | some CmdVal.other => .error "exec: unsupported cmd type"
  | some (CmdVal.str s) =>
    let parts := goFields s
    if parts = [] then .error "exec: empty cmd string"
    else executeArgv allowedDir parts
  | some (CmdVal.arr elems) =>
    if elems = [] then .error "exec: empty cmd array"
    else
      match argStrings elems with
      | none => .error "exec: cmd array must contain strings only"
      | some argv => executeArgv allowedDir argv

end ExecB

namespace providers

/-!
Model of `internal/providers/retry.go`, first variant (the one with the
429-aware backoff; the second variant in the same file uses a 500ms base
and no 429 handling and is not claimed about).  Durations are nanoseconds
in `Nat`; the float64 arithmetic of `backoffDelay` is exact over the
range the loop can reach, so `Nat` arithmetic models it faithfully.
-/

/-- `maxRetries`. -/
def maxRetries : Nat := 3

/-- `baseDelay = 1 * time.Second`, in nanoseconds. -/
def baseDelay : Nat := 1000000000

/-- `maxDelay = 60 * time.Second`, in nanoseconds. -/
def maxDelay : Nat := 60000000000

/-- `rateLimitBase = 5 * time.Second`, in nanoseconds. -/
def rateLimitBase : Nat := 5000000000

/-- `retryableStatusCode`. -/
def retryableStatusCode (code : Nat) : Bool :=
  code = 429 ∨ code = 500 ∨ code = 502 ∨ code = 503 ∨ code = 504

/-- `backoffDelay attempt = min (baseDelay * 2^attempt) maxDelay`. -/
def backoffDelay (attempt : Nat) : Nat :=
  let delay := baseDelay * 2 ^ attempt
  if maxDelay < delay then maxDelay else delay

/-- What one loop iteration of `doWithRetry` observes: `buildReq` failed,
`client.Do` failed with a network error, or an HTTP response arrived.
`retryAfterNs` is the value of `retryAfterDelay(resp)`: the parsed
`Retry-After` header as nanoseconds, `0` when the header is absent,
unparsable or non-positive. -/
inductive Step where
  | buildErr
  | netErr
  | httpResp (status : Nat) (retryAfterNs : Nat)
deriving DecidableEq, Repr

/-- What `doWithRetry` returns: an error (`buildReq` failure, or a network
error on the last attempt), or a response (a non-retryable status returned
immediately, or the last retryable response once retries are exhausted). -/
inductive RetryResult where
  | errReturn
  | respReturn (status : Nat) (retryAfterNs : Nat)
deriving DecidableEq, Repr

/-- The delay slept before attempt `attempt` (≥ 1), given the previous
iteration's observation (`resp` is nil after a network error, so the 429
branch fires only when the previous attempt itself returned a 429). -/
def sleepDelay (attempt : Nat) (prev : Option Step) : Nat :=
  match prev with
  | some (Step.httpResp s ra) =>
    if s = 429 then
      let d0 := rateLimitBase * 2 ^ (attempt - 1)
      let d1 := if 0 < ra ∧ ra ≤ maxDelay then ra else d0
      if maxDelay < d1 then maxDelay else d1
    else backoffDelay (attempt - 1)
  | _ => backoffDelay (attempt - 1)

/-- The retry loop of `doWithRetry`.  `outcomes.getD attempt` is what
attempt number `attempt` observes; `fuel` counts the remaining loop
iterations (the entry point passes `maxRetries + 1`, so `fuel =
maxRetries + 1 - attempt` throughout, and `fuel = 0` is the loop's
`attempt > maxRetries` exit).  Returns the result together with the list
of sleeps performed, in order, in nanoseconds. -/
def retryGo (outcomes : List Step) :
    Nat → Nat → Option Step → RetryResult × List Nat
  | 0, _, prev =>
    match prev with
    | some (Step.httpResp s ra) => (RetryResult.respReturn s ra, [])
    | _ => (RetryResult.errReturn, [])
  | fuel + 1, attempt, prev =>
    let sleeps := if attempt = 0 then [] else [sleepDelay attempt prev]
    match outcomes.getD attempt Step.netErr with
    | Step.buildErr => (RetryResult.errReturn, sleeps)
    | Step.netErr =>
      let r := retryGo outcomes fuel (attempt + 1) (some Step.netErr)
      (r.1, sleeps ++ r.2)
    | Step.httpResp s ra =>
      if retryableStatusCode s then
        let r := retryGo outcomes fuel (attempt + 1) (some (Step.httpResp s ra))
        (r.1, sleeps ++ r.2)
      else (RetryResult.respReturn s ra, sleeps)

/-- `doWithRetry`, as a function of the per-attempt observations. -/
def doWithRetry (outcomes : List Step) : RetryResult × List Nat :=
  retryGo outcomes (maxRetries + 1) 0 none

end providers

namespace channels

/-!
Model of the Telegram adapter (`StartTelegramWithBase` and `splitMessage`
in the channels package).  One `getUpdates` result entry is an `Update`;
the inbound polling goroutine turns each into at most one `Inbound` pushed
onto `Hub.In`.  Timestamps (`time.Now()`) are not modelled.
-/

/-- The fields of a `getUpdates` message entry the poller reads. -/
structure TgMessage where
  fromId : Option Int
  chatId : Int
  text : String
deriving DecidableEq, Repr

/-- One entry of `getUpdates`' `result` array. -/
structure TgUpdate where
  updateId : Int
  message : Option TgMessage
deriving DecidableEq, Repr

/-- An inbound envelope as pushed onto `Hub.In` (timestamp omitted). -/
structure Inbound where
  channel : String
  senderId : String
  chatId : String
  content : String
deriving DecidableEq, Repr

/-- The sender id string the poller computes: `strconv.FormatInt` of
`message.from.id`, or `""` when `from` is nil or the message is absent. -/
def tgSenderId (u : TgUpdate) : String :=
  match u.message with
  | none => ""
  | some m =>
    match m.fromId with
    | some i => toString i
    | none => ""

/-- The per-update body of the inbound polling loop: `some inb` means the
envelope `inb` is sent on `Hub.In`, `none` that the update is dropped.
The `allowed` set built from `allowFrom` is empty iff the list is, and
its membership test agrees with list membership, so the list is used
directly. -/
def tgHandleUpdate (allowFrom : List String) (u : TgUpdate) : Option Inbound :=
  match u.message with
  | none => none
  | some m =>
    let fromId := tgSenderId u
    if allowFrom = [] then none
    else if fromId ∈ allowFrom then some ⟨"telegram", fromId, toString m.chatId, m.text⟩
    else none

/-- One polling round over a `getUpdates` batch: the envelopes pushed onto
`Hub.In`, in order. -/
def tgPollBatch (allowFrom : List String) (upds : List TgUpdate) : List Inbound :=
  upds.filterMap (tgHandleUpdate allowFrom)

/-- `lastIndexByte`: index of the last occurrence of `c`, scanning byte-wise
(`none` models Go's `-1`). -/
def lastIndexByte (l : List Char) (c : Char) : Option Nat :=
  match l with
  | [] => none
  | x :: xs =>
    match lastIndexByte xs c with
    | some i => some (i + 1)
    | none => if x = c then some 0 else none

/-- The chunking loop of `splitMessage` (the `for len(text) > 0` loop).
`fuel` bounds the iterations; each iteration removes `cut ≥ 1` characters
when `maxLen ≥ 1`, so `text.length` iterations always suffice (the Go loop
does not terminate when `maxLen ≤ 0`, which the sender never passes). -/
def splitLoop (maxLen : Nat) : Nat → List Char → List (List Char)
  | 0, _ => []
  | fuel + 1, text =>
    if text.length = 0 then []
    else if text.length ≤ maxLen then [text]
    else
      let cut :=
        match lastIndexByte (text.take maxLen) '\n' with
        | some i => if 0 < i then i + 1 else maxLen
        | none => maxLen
      text.take cut :: splitLoop maxLen fuel (text.drop cut)

/-- `splitMessage text maxLen`: split into chunks of at most `maxLen`
bytes, cutting after the last newline inside the window when one exists
past position 0.  The Go byte string is modelled as a `List Char`. -/
def splitMessage (text : List Char) (maxLen : Nat) : List (List Char) :=
  if text.length ≤ maxLen then [text]
  else splitLoop maxLen text.length text

end channels

namespace memory

/-!
Model of `internal/agent/memory/store.go` (the in-memory lists; the
file-backed operations are not claimed about) and of the rankers
(`SimpleRanker` in the memory package, `LLMMemoryRanker` bundled in the
repository sources).  `time.Now().UTC()` is modelled by an explicit
`now : Nat` argument.
-/

/-- `MemoryItem`. -/
structure MemoryItem where
  kind : String
  text : String
  timestamp : Nat
deriving DecidableEq, Repr

/-- The in-memory part of `MemoryStore`. -/
structure MemoryStore where
  limit : Nat
  long : List MemoryItem
  short : List MemoryItem
deriving DecidableEq, Repr

/-- `NewMemoryStore limit` (through `NewMemoryStoreWithWorkspace`):
a non-positive limit becomes 100. -/
def newMemoryStore (limit : Int) : MemoryStore :=
  { limit := if limit ≤ 0 then 100 else limit.toNat, long := [], short := [] }

/-- `MemoryStore.AddShort`: append, then drop the oldest entries beyond
`limit`. -/
def addShort (s : MemoryStore) (now : Nat) (text : String) : MemoryStore :=
  let l := s.short ++ [⟨"short", text, now⟩]
  { s with short := if s.limit < l.length then l.drop (l.length - s.limit) else l }

/-- `MemoryStore.AddLong`: append (no cap). -/
def addLong (s : MemoryStore) (now : Nat) (text : String) : MemoryStore :=
  { s with long := s.long ++ [⟨"long", text, now⟩] }

/-- `MemoryStore.Recent n`: up to `n` items, short newest-first then long
newest-first (the two early-exit loops of the source compute exactly the
`n`-prefix of the two reversed lists in sequence). -/
def recent (s : MemoryStore) (n : Int) : List MemoryItem :=
  if n ≤ 0 then []
  else (s.short.reverse ++ s.long.reverse).take n.toNat

/-- A sequence of `AddShort` calls on a store, stamping consecutive clock
values (the claims do not depend on the timestamps). -/
def addShortSeq (s : MemoryStore) (now : Nat) : List String → MemoryStore
  | [] => s
  | t :: rest => addShortSeq (addShort s now t) (now + 1) rest

/-- Go regexp `\w`: ASCII word characters. -/
def isWordChar (c : Char) : Bool :=
  ('a' ≤ c ∧ c ≤ 'z') ∨ ('A' ≤ c ∧ c ≤ 'Z') ∨ ('0' ≤ c ∧ c ≤ '9') ∨ c = '_'

/-- The maximal `\w+` runs of a character list, in order
(`regexp.FindAllString` over the claimed inputs).  `fuel` bounds the
iterations; every iteration consumes at least one character, so the
callers' `l.length` always suffices. -/
def wordRunsF : Nat → List Char → List (List Char)
  | 0, _ => []
  | _, [] => []
  | fuel + 1, c :: rest =>
    if isWordChar c then
      (c :: rest.takeWhile isWordChar) :: wordRunsF fuel (rest.dropWhile isWordChar)
    else wordRunsF fuel rest

/-- The `\w+` runs of a character list. -/
def wordRuns (l : List Char) : List (List Char) := wordRunsF l.length l

/-- `tokenize`: lowercase word tokens of length ≥ 2. -/
def tokenize (s : String) : List String :=
  ((wordRuns s.toList).map (fun r => String.mk (r.map Char.toLower))).filter
    (fun p => 2 ≤ p.length)

/-- One scored memory of `SimpleRanker.Rank` (`scored`). -/
structure Scored where
  m : MemoryItem
  score : Nat
  idx : Nat
deriving DecidableEq, Repr

/-- The `sort.Slice` comparator: higher score first, ties to the higher
original index.  The order is total and strict on distinct indices, so the
unstable Go sort has a unique result, computed here by a merge sort on the
reflexive closure. -/
def scoredLE (a b : Scored) : Bool :=
  b.score < a.score ∨ (a.score = b.score ∧ b.idx ≤ a.idx)

/-- `SimpleRanker.Rank query memories top` (`top` is a Go `int`). -/
def simpleRank (query : String) (memories : List MemoryItem) (top : Int) : List MemoryItem :=
  let top := if top ≤ 0 ∨ (memories.length : Int) < top then (memories.length : Int) else top
  let qTokens := tokenize query
  if qTokens = [] then
    memories.reverse.take top.toNat
  else
    let scores := memories.enum.map (fun p =>
      let mTokens := tokenize p.2.text
      { m := p.2, score := qTokens.countP (fun qt => mTokens.contains qt), idx := p.1 : Scored })
    ((scores.mergeSort scoredLE).take top.toNat).map (fun sc => sc.m)

/-! ### LLMMemoryRanker -/

/-- JSON whitespace (what `encoding/json` skips between tokens). -/
def isJsonWs (c : Char) : Bool :=
  c = ' ' ∨ c = '\t' ∨ c = '\n' ∨ c = '\r'

/-- Go `unicode.IsSpace` on the ASCII range (for `strings.TrimSpace`). -/
def isGoSpace (c : Char) : Bool :=
  c = ' ' ∨ c = '\t' ∨ c = '\n' ∨ c = '\r' ∨ c = '\x0b' ∨ c = '\x0c'

/-- Model of `strings.TrimSpace`. -/
def trimSpace (s : String) : String :=
  String.mk ((s.toList.dropWhile isGoSpace).reverse.dropWhile isGoSpace).reverse

/-- Skip JSON whitespace. -/
def skipWs (l : List Char) : List Char := l.dropWhile isJsonWs

/-- Parse one JSON integer token (sign, digits, no exponent or fraction —
those make `json.Unmarshal` into `[]int` fail, as does a leading zero):
the value and the remaining characters. -/
def parseIntTok (l : List Char) : Option (Int × List Char) :=
  let (neg, l1) := match l with
    | '-' :: rest => (true, rest)
    | _ => (false, l)
  let ds := l1.takeWhile Char.isDigit
  let rest := l1.dropWhile Char.isDigit
  if ds = [] then none
  else if ds.headD '0' = '0' ∧ 1 < ds.length then none
  else
    let n : Nat := ds.foldl (fun acc c => acc * 10 + (c.toNat - 48)) 0
    some (if neg then -(n : Int) else (n : Int), rest)

/-- The element loop of a JSON `[ ... ]` of integers: positioned before a
value; `fuel` bounds the characters consumed (each element consumes at
least one). -/
def jsonIntsLoop : Nat → List Char → Option (List Int)
  | 0, _ => none
  | fuel + 1, l =>
    match parseIntTok (skipWs l) with
    | none => none
    | some (v, rest) =>
      match skipWs rest with
      | ',' :: tail => (jsonIntsLoop fuel tail).map (v :: ·)
      | ']' :: tail => if skipWs tail = [] then some [v] else none
      | _ => none

/-- `json.Unmarshal(body, &idxs)` for `idxs : []int`: `some l` on success.
A top-level `null` succeeds and leaves the slice nil, i.e. `[]`. -/
def parseJsonInts (s : String) : Option (List Int) :=
  match skipWs s.toList with
  | '[' :: rest =>
    (match skipWs rest with
     | ']' :: tail => if skipWs tail = [] then some [] else none
     | _ => jsonIntsLoop (rest.length + 1) rest)
  | 'n' :: 'u' :: 'l' :: 'l' :: rest => if skipWs rest = [] then some [] else none
  | _ => none

/-- `parseIndicesFromText`: take the substring from the first `[` to the
last `]` and JSON-parse it; `none` models `ErrNoIndicesFound` or a JSON
error. -/
def parseIndicesFromText (s : String) : Option (List Int) :=
  let cs := s.toList
  let start? := cs.findIdx? (fun c => c = '[')
  let stop? := (cs.reverse.findIdx? (fun c => c = ']')).map (fun j => cs.length - 1 - j)
  match start?, stop? with
  | some start, some stop =>
    if start < stop then parseJsonInts (String.mk ((cs.drop start).take (stop + 1 - start)))
    else none
  | _, _ => none

/-- An `Arguments["indices"]` value, as the unified map can carry it after
wire decoding: a homogeneous `[]int`, a heterogeneous `[]interface` whose
elements may or may not be numeric, or a non-list value.  (The `[]float64`
case of `parseIndicesFromArgs` truncates floats and is outside this
integer model.) -/
inductive ArgVal where
  | ints (l : List Int)
  | heter (l : List (Option Int))
  | nonList
deriving DecidableEq, Repr

/-- `parseIndicesFromArgs`. -/
def parseIndicesFromArgs : ArgVal → Option (List Int)
  | ArgVal.ints l => some l
  | ArgVal.heter l =>
    let out := l.filterMap id
    if out = [] then none else some out
  | ArgVal.nonList => none

/-- A tool call as the ranker sees it: its name and, when the `"indices"`
key is present in `Arguments`, that value. -/
structure ToolCall where
  name : String
  indices : Option ArgVal
deriving DecidableEq, Repr

/-- `LLMResponse`. -/
structure LLMResponse where
  content : String
  hasToolCalls : Bool
  toolCalls : List ToolCall
deriving DecidableEq, Repr

/-- The provider outcome a `Rank` call observes: `Chat`'s error or its
response. -/
inductive ProviderOutcome where
  | err
  | ok (resp : LLMResponse)
deriving DecidableEq, Repr

/-- The index-collection loop shared by both `Rank` paths: keep in-range,
unseen indices, stop at `top` (`seen` is the set of used indices). -/
def collectIdxs (memories : List MemoryItem) (top : Int) :
    List Int → List MemoryItem → List Int → List MemoryItem
  | [], out, _ => out
  | i :: rest, out, seen =>
    if i < 0 ∨ (memories.length : Int) ≤ i then collectIdxs memories top rest out seen
    else if seen.contains i then collectIdxs memories top rest out seen
    else
      let out' := out ++ [memories.getD i.toNat ⟨"", "", 0⟩]
      if top ≤ (out'.length : Int) then out'
      else collectIdxs memories top rest out' (i :: seen)

/-- The pad loop: fill from the fallback ordering, skipping items already
present under the `(kind, text)` identity, until `top` is reached (the
loop breaks before looking at the next fallback item once `out` is full).
`fuel` bounds the iterations; each one consumes one fallback item, so the
caller's `fb.length` always suffices. -/
def padLoop (top : Int) : Nat → List MemoryItem → List MemoryItem → List MemoryItem
  | 0, out, _ => out
  | fuel + 1, out, fb =>
    if top ≤ (out.length : Int) then out
    else
      match fb with
      | [] => out
      | m :: rest =>
        if out.any (fun s => s.text = m.text ∧ s.kind = m.kind) then
          padLoop top fuel out rest
        else padLoop top fuel (out ++ [m]) rest

/-- Build the ranking from parsed indices, then pad from `SimpleRanker`'s
full ordering (`r.fallback.Rank(query, memories, len(memories))`, a list
of `memories.length` items, hence the fuel). -/
def buildFromIdxs (query : String) (memories : List MemoryItem) (top : Int)
    (idxs : List Int) : List MemoryItem :=
  padLoop top memories.length (collectIdxs memories top idxs [] [])
    (simpleRank query memories (memories.length : Int))

/-- The first usable `rank_memories` tool call's parsed indices, scanning
the tool calls in order (a wrong name, a missing `"indices"` key or a
parse failure moves on to the next call). -/
def firstToolIdxs (tcs : List ToolCall) : Option (List Int) :=
  tcs.findSome? (fun tc =>
    if tc.name = "rank_memories" then tc.indices.bind parseIndicesFromArgs else none)

/-- `LLMMemoryRanker.Rank query memories top`, as a function of the
provider outcome.  Mirrors the source: guard, provider error → fallback;
prefer a usable tool call; else strict JSON parse of the trimmed content,
else the first-`[`-to-last-`]` substring; parse failure → fallback. -/
def llmRank (outcome : ProviderOutcome) (query : String)
    (memories : List MemoryItem) (top : Int) : List MemoryItem :=
  if memories = [] ∨ top ≤ 0 then []
  else
    match outcome with
    | ProviderOutcome.err => simpleRank query memories top
    | ProviderOutcome.ok resp =>
      match
        (if resp.hasToolCalls ∧ resp.toolCalls ≠ [] then firstToolIdxs resp.toolCalls
         else none) with
      | some idxs => buildFromIdxs query memories top idxs
      | none =>
        let body := trimSpace resp.content
        match parseJsonInts body with
        | some idxs => buildFromIdxs query memories top idxs
        | none =>
          match parseIndicesFromText body with
          | some idxs => buildFromIdxs query memories top idxs
          | none => simpleRank query memories top

end memory

/-! ## Helper lemmas -/

section Claims

open tools channels memory providers

/-- An allow-listed drop: with an empty `allowFrom`, or a sender id outside
it, the poller never forwards the update. -/
theorem tgHandleUpdate_drop (allowFrom : List String) (u : TgUpdate)
    (h : allowFrom = [] ∨ tgSenderId u ∉ allowFrom) :
    tgHandleUpdate allowFrom u = none := by
  obtain ⟨uid, msg⟩ := u
  cases msg with
  | none => rfl
  | some m =>
    rcases h with h | h
    · subst h; rfl
    · simp [tgHandleUpdate, h]

/-- Keeping the last `L` elements twice absorbs: shared `take` algebra. -/
theorem take_append_take (L : Nat) (x y : List String) :
    (x ++ y.take L).take L = (x ++ y).take L := by
  rw [List.take_append_eq_append_take, List.take_append_eq_append_take, List.take_take]
  have h : (L - x.length) ⊓ L = L - x.length := Nat.min_eq_left (Nat.sub_le L x.length)
  rw [h]

/-- `addShort` keeps the short list within the limit. -/
theorem addShort_short_le (st : MemoryStore) (now : Nat) (t : String)
    (h : st.short.length ≤ st.limit) :
    (addShort st now t).short.length ≤ st.limit := by
  simp only [addShort]
  split
  · simp only [List.length_drop]; omega
  · rename_i hunder
    exact Nat.not_lt.mp hunder

/-- `addShort` keeps the last `limit` texts (reversed form). -/
theorem addShort_short_rev (st : MemoryStore) (now : Nat) (t : String)
    (h : st.short.length ≤ st.limit) :
    ((addShort st now t).short.map MemoryItem.text).reverse =
      (t :: (st.short.map MemoryItem.text).reverse).take st.limit := by
  have hrev : ((st.short ++ [(⟨"short", t, now⟩ : MemoryItem)]).map MemoryItem.text).reverse
      = t :: (st.short.map MemoryItem.text).reverse := by simp
  simp only [addShort]
  split
  · rename_i hover
    rw [List.map_drop, List.reverse_drop, hrev]
    congr 1
    simp only [List.length_map, List.length_append, List.length_cons, List.length_nil] at hover ⊢
    omega
  · rename_i hunder
    rw [hrev, List.take_of_length_le]
    simp only [List.length_append, List.length_cons, List.length_nil, Nat.not_lt] at hunder
    simp only [List.length_cons, List.length_reverse, List.length_map]
    omega

/-- The short list after a whole `addShortSeq`, reversed: the last `limit`
texts among the previous short texts followed by the added texts. -/
theorem addShortSeq_spec (texts : List String) : ∀ (st : MemoryStore) (now : Nat),
    st.short.length ≤ st.limit →
    (addShortSeq st now texts).limit = st.limit ∧
    (addShortSeq st now texts).long = st.long ∧
    ((addShortSeq st now texts).short.map MemoryItem.text).reverse =
      (texts.reverse ++ (st.short.map MemoryItem.text).reverse).take st.limit := by
  induction texts with
  | nil =>
    intro st now h
    refine ⟨rfl, rfl, ?_⟩
    simp only [addShortSeq, List.reverse_nil, List.nil_append]
    rw [List.take_of_length_le]
    simp only [List.length_reverse, List.length_map]
    omega
  | cons t rest ih =>
    intro st now h
    have hlim : (addShort st now t).limit = st.limit := rfl
    have hlong : (addShort st now t).long = st.long := rfl
    have hlen : (addShort st now t).short.length ≤ (addShort st now t).limit := by
      rw [hlim]; exact addShort_short_le st now t h
    obtain ⟨h1, h2, h3⟩ := ih (addShort st now t) (now + 1) hlen
    refine ⟨by rw [addShortSeq, h1, hlim], by rw [addShortSeq, h2, hlong], ?_⟩
    show ((addShortSeq (addShort st now t) (now + 1) rest).short.map MemoryItem.text).reverse = _
    rw [h3, hlim, addShort_short_rev st now t h]
    rw [take_append_take]
    simp only [List.reverse_cons, List.append_assoc]
    rfl

/-- A found last index is inside the list. -/
theorem lastIndexByte_lt (l : List Char) (c : Char) (i : Nat)
    (h : lastIndexByte l c = some i) : i < l.length := by
  induction l generalizing i with
  | nil => exact absurd h (by simp [lastIndexByte])
  | cons x xs ih =>
    rw [lastIndexByte] at h
    cases hx : lastIndexByte xs c with
    | some j =>
      rw [hx] at h
      have hij : i = j + 1 := by simpa using h.symm
      have := ih j hx
      simp only [List.length_cons]
      omega
    | none =>
      rw [hx] at h
      by_cases hxc : x = c
      · simp only [if_pos hxc] at h
        have : i = 0 := by simpa using h.symm
        simp [this]
      · simp [if_neg hxc] at h

/-- The chunking loop: with positive `maxLen` and enough fuel, the chunks
concatenate back to the text and each fits in `maxLen`. -/
theorem splitLoop_spec (maxLen : Nat) (hm : 0 < maxLen) :
    ∀ (fuel : Nat) (text : List Char), text.length ≤ fuel →
      (splitLoop maxLen fuel text).flatten = text ∧
      ∀ ch ∈ splitLoop maxLen fuel text, ch.length ≤ maxLen := by
  intro fuel
  induction fuel with
  | zero =>
    intro text ht
    have hnil : text = [] := List.eq_nil_of_length_eq_zero (Nat.le_zero.mp ht)
    subst hnil
    exact ⟨rfl, by simp [splitLoop]⟩
  | succ f ih =>
    intro text ht
    by_cases h0 : text.length = 0
    · have hnil : text = [] := List.eq_nil_of_length_eq_zero h0
      subst hnil
      exact ⟨rfl, by simp [splitLoop]⟩
    · by_cases h1 : text.length ≤ maxLen
      · refine ⟨?_, ?_⟩ <;> simp [splitLoop, h0, h1]
      · obtain ⟨cut, hcutdef, hge, hle⟩ :
            ∃ cut, (match lastIndexByte (text.take maxLen) '\n' with
              | some i => if 0 < i then i + 1 else maxLen
              | none => maxLen) = cut ∧ 1 ≤ cut ∧ cut ≤ maxLen := by
          cases hli : lastIndexByte (text.take maxLen) '\n' with
          | none => exact ⟨maxLen, by simp, hm, Nat.le_refl _⟩
          | some i =>
            by_cases hi : 0 < i
            · refine ⟨i + 1, by simp [hi], by omega, ?_⟩
              have hlt := lastIndexByte_lt _ _ _ hli
              rw [List.length_take] at hlt
              have : i < maxLen := Nat.lt_of_lt_of_le hlt (Nat.min_le_left _ _)
              omega
            · exact ⟨maxLen, by simp [hi], hm, Nat.le_refl _⟩
        have hrec := ih (text.drop cut) (by rw [List.length_drop]; omega)
        rw [splitLoop]
        simp only [if_neg h0, if_neg h1, hcutdef]
        refine ⟨?_, ?_⟩
        · rw [List.flatten_cons, hrec.1, List.take_append_drop]
        · intro ch hch
          rcases List.mem_cons.mp hch with hc | hmem
          · subst hc
            rw [List.length_take]
            exact Nat.le_trans (Nat.min_le_left _ _) hle
          · exact hrec.2 ch hmem

/-- A `cmd` array of strings decodes to exactly those strings. -/
theorem argStrings_map_str (l : List String) :
    argStrings (l.map JVal.str) = some l := by
  induction l with
  | nil => rfl
  | cons t rest ih => simp [argStrings, ih]

/-- The decoded argv of a nonempty string `cmd` array. -/
theorem argStrings_cons_map (p : String) (l : List String) :
    argStrings (JVal.str p :: l.map JVal.str) = some (p :: l) := by
  simp [argStrings, argStrings_map_str]

/-- If the generic-mode validation loop accepts, every argument it visited
is safe. -/
theorem validateLoopA_ok_all_safe :
    ∀ (fuel : Nat) (ws : String) (cur : List String) (idx : Nat) (r : List String),
      cur.length - idx ≤ fuel →
      ExecA.validateLoop ws false false fuel cur idx = Except.ok r →
      ∀ j, idx ≤ j → j < cur.length → ExecA.hasUnsafeArg (cur.getD j "") = false := by
  intro fuel
  induction fuel with
  | zero =>
    intro ws cur idx r hf _ j hj1 hj2
    omega
  | succ f ih =>
    intro ws cur idx r hf hok j hj1 hj2
    rw [ExecA.validateLoop] at hok
    by_cases hend : cur.length ≤ idx
    · omega
    · simp only [if_neg hend, Bool.false_eq_true, if_false] at hok
      simp only [false_and, if_false] at hok
      by_cases hu : ExecA.hasUnsafeArg (cur.getD idx "")
      · rw [if_pos hu] at hok
        exact absurd hok (by simp)
      · rw [if_neg hu] at hok
        rcases Nat.eq_or_lt_of_le hj1 with heq | hlt
        · subst heq
          exact Bool.not_eq_true _ ▸ (by simpa using hu)
        · exact ih ws cur (idx + 1) r (by omega) hok j hlt hj2

/-- Interpreter programs are not on the dangerous blacklist. -/
theorem interp_not_dangerous (p : String) (h : isInterpreter p = true) :
    isDangerousProg p = false := by
  unfold isInterpreter at h
  unfold isDangerousProg
  have hm : progKey p ∈ interpreters := by simpa using h
  simp only [interpreters, List.mem_cons, List.not_mem_nil, or_false] at hm
  rcases hm with h1 | h1 | h1 | h1 | h1 <;> rw [h1] <;> rfl

/-- Interpreter programs are not package managers. -/
theorem interp_not_pkg (p : String) (h : isInterpreter p = true) :
    isPackageManager p = false := by
  unfold isInterpreter at h
  unfold isPackageManager
  have hm : progKey p ∈ interpreters := by simpa using h
  simp only [interpreters, List.mem_cons, List.not_mem_nil, or_false] at hm
  rcases hm with h1 | h1 | h1 | h1 | h1 <;> rw [h1] <;> rfl

/-- Package managers are not on the dangerous blacklist. -/
theorem pkg_not_dangerous (p : String) (h : isPackageManager p = true) :
    isDangerousProg p = false := by
  unfold isPackageManager at h
  unfold isDangerousProg
  have hm : progKey p ∈ packageManagers := by simpa using h
  simp only [packageManagers, List.mem_cons, List.not_mem_nil, or_false] at hm
  rcases hm with h1 | h1 | h1 <;> rw [h1] <;> rfl

/-- A string that starts with a slash is not the `-c` flag. -/
theorem slash_ne_dash_c (p : String) (h : hasPrefixStr p "/" = true) : p ≠ "-c" := by
  intro he
  subst he
  exact absurd h (by decide)

/-- Past the script-path position, the interpreter-mode loop accepts when
every remaining argument is safe. -/
theorem validateLoopA_interp_tail :
    ∀ (fuel : Nat) (ws : String) (cur : List String) (idx : Nat),
      2 ≤ idx →
      (∀ j, idx ≤ j → j < cur.length → ExecA.hasUnsafeArg (cur.getD j "") = false) →
      ExecA.validateLoop ws true false fuel cur idx = Except.ok cur := by
  intro fuel
  induction fuel with
  | zero => intro ws cur idx _ _; rfl
  | succ f ih =>
    intro ws cur idx h2 hsafe
    rw [ExecA.validateLoop]
    by_cases hend : cur.length ≤ idx
    · simp [hend]
    · simp only [if_neg hend]
      have hne1 : ¬ idx = 1 := by omega
      have hsafe0 : ExecA.hasUnsafeArg (cur.getD idx "") = false :=
        hsafe idx (Nat.le_refl _) (by omega)
      have hrec := ih ws cur (idx + 1) (by omega) (fun j hj1 hj2 => hsafe j (by omega) hj2)
      by_cases hskip : 2 ≤ idx ∧ 3 ≤ cur.length ∧ cur.getD 1 "" = "-c" ∧ idx = 2
      · obtain ⟨hge2, h3len, hc, hidx2⟩ := hskip
        subst hidx2
        have hc' : cur[1]?.getD "" = "-c" := by simpa [List.getD] using hc
        simp [h3len, hc']
        exact hrec
      · have hsafe0' : ExecA.hasUnsafeArg (cur[idx]?.getD "") = false := by
          simpa [List.getD] using hsafe0
        have hskip' : ¬ (2 ≤ idx ∧ 3 ≤ cur.length ∧ cur[1]?.getD "" = "-c" ∧ idx = 2) := by
          simpa [List.getD] using hskip
        simp [hskip', hne1, hsafe0']
        exact hrec

/-- For an interpreter program, `Execute` reduces to the interpreter-mode
validation loop. -/
theorem execA_interp_reduce (allowedDir interp : String) (args : List String)
    (hi : isInterpreter interp = true) :
    ExecA.execute allowedDir (some (CmdVal.arr ((interp :: args).map JVal.str))) =
      ExecA.validateLoop allowedDir true false (interp :: args).length (interp :: args) 1 := by
  simp [ExecA.execute, argStrings_cons_map, interp_not_dangerous interp hi,
    interp_not_pkg interp hi, hi]

/-- C3: interpreter mode of the array-only `Execute`: with `-c`, the inline
code in `argv[2]` is not validated and may contain anything; otherwise
`argv[1]` is a script path rejected on any occurrence of `..`, and an
absolute script path is rewritten to a workspace-relative one when it lies
inside the configured workspace and rejected when it lies outside. -/
theorem C3_exec_interpreter_mode :
    (∀ (allowedDir interp code : String), isInterpreter interp = true →
      ExecA.execute allowedDir
          (some (CmdVal.arr [JVal.str interp, JVal.str "-c", JVal.str code])) =
        Except.ok [interp, "-c", code]) ∧
    (∀ (allowedDir interp p : String) (rest : List String), isInterpreter interp = true →
      p ≠ "-c" → containsSub p ".." = true →
      ExecA.execute allowedDir (some (CmdVal.arr ((interp :: p :: rest).map JVal.str))) =
        Except.error ("exec: argument '" ++ p ++ "' looks unsafe")) ∧
    (∀ (allowedDir interp p rel : String) (rest : List String), isInterpreter interp = true →
      hasPrefixStr p "/" = true → containsSub p ".." = false → allowedDir ≠ "" →
      goFilepathRel allowedDir p = some rel → hasPrefixStr rel ".." = false →
      (∀ a ∈ rest, ExecA.hasUnsafeArg a = false) →
      ExecA.execute allowedDir (some (CmdVal.arr ((interp :: p :: rest).map JVal.str))) =
        Except.ok (interp :: rel :: rest)) ∧
    (∀ (allowedDir interp p : String) (rest : List String), isInterpreter interp = true →
      hasPrefixStr p "/" = true → containsSub p ".." = false → allowedDir ≠ "" →
      (goFilepathRel allowedDir p = none ∨
        ∃ rel, goFilepathRel allowedDir p = some rel ∧ hasPrefixStr rel ".." = true) →
      ExecA.execute allowedDir (some (CmdVal.arr ((interp :: p :: rest).map JVal.str))) =
        Except.error ("exec: script path '" ++ p ++ "' is outside workspace")) := by
  have hsafec : ExecA.hasUnsafeArg "-c" = false := by decide
  refine ⟨?_, ?_, ?_, ?_⟩
  · intro allowedDir interp code hi
    show ExecA.execute allowedDir
        (some (CmdVal.arr ((interp :: ["-c", code]).map JVal.str))) = _
    rw [execA_interp_reduce allowedDir interp ["-c", code] hi]
    simp [ExecA.validateLoop, hsafec]
  · intro allowedDir interp p rest hi hne hdd
    rw [execA_interp_reduce allowedDir interp (p :: rest) hi]
    rw [ExecA.validateLoop.eq_def]
    simp only [List.length_cons]
    simp [hne, hdd, ExecA.hasUnsafeArg]
  · intro allowedDir interp p rel rest hi hpre hdd hws hrel hrelpre hsafe
    rw [execA_interp_reduce allowedDir interp (p :: rest) hi]
    rw [ExecA.validateLoop.eq_def]
    simp only [List.length_cons]
    simp [slash_ne_dash_c p hpre, hdd, hpre, hws, hrel, hrelpre]
    refine validateLoopA_interp_tail _ allowedDir (interp :: rel :: rest) 2 (by omega) ?_
    intro j hj2 hjlt
    obtain ⟨k, rfl⟩ : ∃ k, j = k + 2 := ⟨j - 2, by omega⟩
    simp only [List.getD_cons_succ]
    simp only [List.length_cons] at hjlt
    have hk : k < rest.length := by omega
    rw [List.getD_eq_getElem _ _ hk]
    exact hsafe _ (List.getElem_mem hk)
  · intro allowedDir interp p rest hi hpre hdd hws hout
    rw [execA_interp_reduce allowedDir interp (p :: rest) hi]
    rw [ExecA.validateLoop.eq_def]
    simp only [List.length_cons]
    rcases hout with hnone | ⟨rel, hrel, hrelpre⟩
    · simp [slash_ne_dash_c p hpre, hdd, hpre, hws, hnone]
    · simp [slash_ne_dash_c p hpre, hdd, hpre, hws, hrel, hrelpre]

/-- Witness for C3 applying the rewrite part at a concrete in-workspace
absolute script path. -/
theorem C3_witness :
    isInterpreter "python" = true ∧
    ExecA.execute "/ws"
        (some (CmdVal.arr (["python", "/ws/app/run.py", "alpha"].map JVal.str))) =
      Except.ok ["python", "app/run.py", "alpha"] :=
  ⟨by decide,
   C3_exec_interpreter_mode.2.2.1 "/ws" "python" "/ws/app/run.py" "app/run.py" ["alpha"]
     (by decide) (by decide) (by decide) (by decide) (by decide) (by decide)
     (by intro a ha; simp at ha; rw [ha]; decide)⟩

/-- C1: in the array-only `Execute`, for a program outside the interpreter
and package-manager sets, any argument containing one of
`/ .. ~ ; & | > < $ `` ` `` makes `Execute` return an error before any
spawn; in particular `["ls", "/etc"]` fails with
"exec: argument '/etc' looks unsafe". -/
theorem C1_exec_rejects_unsafe_args :
    (∀ (allowedDir prog : String) (rest : List String),
      isInterpreter prog = false → isPackageManager prog = false →
      (∃ a ∈ rest, containsSub a "/" ∨ containsSub a ".." ∨ containsSub a "~" ∨
        containsSub a ";" ∨ containsSub a "&" ∨ containsSub a "|" ∨
        containsSub a ">" ∨ containsSub a "<" ∨ containsSub a "$" ∨ containsSub a "`") →
      ∃ e, ExecA.execute allowedDir (some (CmdVal.arr ((prog :: rest).map JVal.str))) =
        Except.error e) ∧
    ExecA.execute "" (some (CmdVal.arr [JVal.str "ls", JVal.str "/etc"])) =
      Except.error "exec: argument '/etc' looks unsafe" := by
  constructor
  · intro allowedDir prog rest hInterp hPkg hex
    by_cases hd : isDangerousProg prog
    · refine ⟨"exec: program '" ++ prog ++ "' is disallowed", ?_⟩
      simp [ExecA.execute, argStrings_cons_map, hd]
    · have hexec : ExecA.execute allowedDir (some (CmdVal.arr ((prog :: rest).map JVal.str))) =
          ExecA.validateLoop allowedDir false false (prog :: rest).length (prog :: rest) 1 := by
        simp [ExecA.execute, argStrings_cons_map, hd, hInterp, hPkg]
      rw [hexec]
      cases hv : ExecA.validateLoop allowedDir false false (prog :: rest).length (prog :: rest) 1 with
      | error e => exact ⟨e, rfl⟩
      | ok r =>
        exfalso
        obtain ⟨a, ha, hunsafe⟩ := hex
        obtain ⟨⟨n, hn⟩, hget⟩ := List.mem_iff_get.mp ha
        have hsafe := validateLoopA_ok_all_safe (prog :: rest).length allowedDir
          (prog :: rest) 1 r (by simp) hv (n + 1) (by omega) (by simp; omega)
        have hgetD : (prog :: rest).getD (n + 1) "" = a := by
          simp only [List.getD_cons_succ]
          rw [List.getD_eq_getElem _ _ hn]
          simpa using hget
        rw [hgetD] at hsafe
        have : ExecA.hasUnsafeArg a = true := by
          simp only [ExecA.hasUnsafeArg, Bool.or_eq_true]
          tauto
        rw [this] at hsafe
        simp at hsafe
  · rfl

/-- For a package manager outside the `uv run pip` shape, the legacy
`Execute` reduces to the package-manager validation loop. -/
theorem execB_pkg_reduce (allowedDir prog : String) (args : List String)
    (hp : isPackageManager prog = true)
    (hshape : ¬ (toLowerStr (filepathBase prog) = "uv" ∧ 3 ≤ (prog :: args).length ∧
        (prog :: args).getD 1 "" = "run" ∧ (prog :: args).getD 2 "" = "pip")) :
    ExecB.execute allowedDir (some (CmdVal.arr ((prog :: args).map JVal.str))) =
      ExecB.validateLoop allowedDir (isInterpreter prog) true (prog :: args).length
        (prog :: args) 1 := by
  have hshape2 : ¬ (toLowerStr (filepathBase prog) = "uv" ∧ 3 ≤ args.length + 1 ∧
      args[0]?.getD "" = "run" ∧ args[1]?.getD "" = "pip") := by
    simpa [List.getD] using hshape
  simp [ExecB.execute, ExecB.executeArgv, argStrings_cons_map,
    pkg_not_dangerous prog hp, hp, hshape2]
  intro h1 h2 h3 h4
  exact absurd ⟨h1, by omega, h3, h4⟩ hshape2

/-- The package-manager loop accepts when no remaining argument contains
`..`. -/
theorem validateLoopB_pkg_ok :
    ∀ (fuel : Nat) (ws : String) (interpM : Bool) (cur : List String) (idx : Nat),
      (∀ j, idx ≤ j → j < cur.length → containsSub (cur.getD j "") ".." = false) →
      ExecB.validateLoop ws interpM true fuel cur idx = Except.ok cur := by
  intro fuel
  induction fuel with
  | zero => intro ws interpM cur idx _; rfl
  | succ f ih =>
    intro ws interpM cur idx hsafe
    rw [ExecB.validateLoop]
    by_cases hend : cur.length ≤ idx
    · simp [hend]
    · have h0 : containsSub (cur.getD idx "") ".." = false :=
        hsafe idx (Nat.le_refl _) (by omega)
      have h0' : containsSub (cur[idx]?.getD "") ".." = false := by
        simpa [List.getD] using h0
      simp [hend, h0']
      exact ih ws interpM cur (idx + 1) (fun j hj1 hj2 => hsafe j (by omega) hj2)

/-- If the package-manager loop accepts, every remaining argument is free
of `..`. -/
theorem validateLoopB_pkg_ok_all_safe :
    ∀ (fuel : Nat) (ws : String) (interpM : Bool) (cur : List String) (idx : Nat)
      (r : List String),
      cur.length - idx ≤ fuel →
      ExecB.validateLoop ws interpM true fuel cur idx = Except.ok r →
      ∀ j, idx ≤ j → j < cur.length → containsSub (cur.getD j "") ".." = false := by
  intro fuel
  induction fuel with
  | zero => intro ws interpM cur idx r hf _ j hj1 hj2; omega
  | succ f ih =>
    intro ws interpM cur idx r hf hok j hj1 hj2
    rw [ExecB.validateLoop] at hok
    by_cases hend : cur.length ≤ idx
    · omega
    · simp only [if_neg hend, if_true] at hok
      by_cases hu : containsSub (cur.getD idx "") ".." = true
      · rw [if_pos hu] at hok
        exact absurd hok (by simp)
      · rcases Nat.eq_or_lt_of_le hj1 with heq | hlt
        · subst heq
          exact Bool.not_eq_true _ ▸ (by simpa using hu)
        · rw [if_neg hu] at hok
          exact ih ws interpM cur (idx + 1) r (by omega) hok j hlt hj2

/-- C4: in the string-accepting `Execute` variant, package-manager mode
(pip, pip3, uv) rejects an argument iff it contains `..` — slashes, `~`
and shell meta-characters all pass — and the hallucinated
`["uv", "run", "pip", ...]` form is rejected with a message giving the
correct `uv pip` syntax. -/
theorem C4_exec_package_manager_mode :
    (∀ (allowedDir prog : String) (args : List String),
      isPackageManager prog = true →
      (∃ a ∈ args, containsSub a ".." = true) →
      ∃ e, ExecB.execute allowedDir (some (CmdVal.arr ((prog :: args).map JVal.str))) =
        Except.error e) ∧
    (∀ (allowedDir prog : String) (args : List String),
      isPackageManager prog = true →
      ¬ (toLowerStr (filepathBase prog) = "uv" ∧ 3 ≤ (prog :: args).length ∧
          (prog :: args).getD 1 "" = "run" ∧ (prog :: args).getD 2 "" = "pip") →
      (∀ a ∈ args, containsSub a ".." = false) →
      ExecB.execute allowedDir (some (CmdVal.arr ((prog :: args).map JVal.str))) =
        Except.ok (prog :: args)) ∧
    (∀ (allowedDir : String) (rest : List String),
      ExecB.execute allowedDir
          (some (CmdVal.arr (("uv" :: "run" :: "pip" :: rest).map JVal.str))) =
        Except.error
          "exec: wrong syntax 'uv run pip install'. Use [\"uv\", \"pip\", \"install\", ...] instead") := by
  refine ⟨?_, ?_, ?_⟩
  · intro allowedDir prog args hp hex
    by_cases hshape : toLowerStr (filepathBase prog) = "uv" ∧ 3 ≤ (prog :: args).length ∧
        (prog :: args).getD 1 "" = "run" ∧ (prog :: args).getD 2 "" = "pip"
    · refine ⟨"exec: wrong syntax 'uv run pip install'. Use [\"uv\", \"pip\", \"install\", ...] instead", ?_⟩
      have hshape2 : toLowerStr (filepathBase prog) = "uv" ∧ 3 ≤ args.length + 1 ∧
          args[0]?.getD "" = "run" ∧ args[1]?.getD "" = "pip" := by
        simpa [List.getD] using hshape
      simp [ExecB.execute, ExecB.executeArgv, argStrings_cons_map,
        pkg_not_dangerous prog hp, hshape2]
    · rw [execB_pkg_reduce allowedDir prog args hp hshape]
      cases hv : ExecB.validateLoop allowedDir (isInterpreter prog) true
          (prog :: args).length (prog :: args) 1 with
      | error e => exact ⟨e, rfl⟩
      | ok r =>
        exfalso
        obtain ⟨a, ha, hdd⟩ := hex
        obtain ⟨⟨n, hn⟩, hget⟩ := List.mem_iff_get.mp ha
        have hsafe := validateLoopB_pkg_ok_all_safe (prog :: args).length allowedDir
          (isInterpreter prog) (prog :: args) 1 r (by simp) hv (n + 1) (by omega)
          (by simp; omega)
        have hgetD : (prog :: args).getD (n + 1) "" = a := by
          simp only [List.getD_cons_succ]
          rw [List.getD_eq_getElem _ _ hn]
          simpa using hget
        rw [hgetD, hdd] at hsafe
        simp at hsafe
  · intro allowedDir prog args hp hshape hsafe
    rw [execB_pkg_reduce allowedDir prog args hp hshape]
    refine validateLoopB_pkg_ok _ allowedDir (isInterpreter prog) (prog :: args) 1 ?_
    intro j hj1 hj2
    obtain ⟨k, rfl⟩ : ∃ k, j = k + 1 := ⟨j - 1, by omega⟩
    simp only [List.getD_cons_succ]
    simp only [List.length_cons] at hj2
    have hk : k < args.length := by omega
    rw [List.getD_eq_getElem _ _ hk]
    exact hsafe _ (List.getElem_mem hk)
  · intro allowedDir rest
    have huv : toLowerStr (filepathBase "uv") = "uv" := by decide
    have hdang : isDangerousProg "uv" = false := by decide
    simp [ExecB.execute, ExecB.executeArgv, argStrings, argStrings_map_str, huv, hdang]

/-- Witness for C4: `uv venv venvs/my-project` (an argument containing a
slash) passes the package-manager sandbox. -/
theorem C4_witness :
    isPackageManager "uv" = true ∧
    ExecB.execute "" (some (CmdVal.arr (["uv", "venv", "venvs/my-project"].map JVal.str))) =
      Except.ok ["uv", "venv", "venvs/my-project"] :=
  ⟨by decide,
   C4_exec_package_manager_mode.2.1 "" "uv" ["venv", "venvs/my-project"] (by decide)
     (by decide) (by decide)⟩

/-- Witness for C1: `ls` is in neither relaxed set and `/etc` holds a
slash, so the call errors. -/
theorem C1_witness :
    isInterpreter "ls" = false ∧ isPackageManager "ls" = false ∧
    (∃ e, ExecA.execute "" (some (CmdVal.arr (("ls" :: ["/etc"]).map JVal.str))) =
      Except.error e) :=
  ⟨by decide, by decide,
   C1_exec_rejects_unsafe_args.1 "" "ls" ["/etc"] (by decide) (by decide)
     ⟨"/etc", by simp, Or.inl (by decide)⟩⟩

/-- C2: for every args map binding `cmd` to a string — any string — the
(array-only) `ExecTool.Execute` returns an error before any process is
spawned: the string form is rejected outright. -/
theorem C2_exec_rejects_string_cmd (allowedDir s : String) :
    ExecA.execute allowedDir (some (CmdVal.str s)) =
      Except.error "exec: string commands are disallowed; use array form" := rfl

/-- C5: the Telegram inbound poller pushes no envelope onto `Hub.In` for an
update whose sender is not allow-listed, and an empty `allow_from` list
denies every update (deny all). -/
theorem C5_telegram_allowlist_denies :
    (∀ (allowFrom : List String) (u : TgUpdate),
        (allowFrom = [] ∨ tgSenderId u ∉ allowFrom) → tgHandleUpdate allowFrom u = none) ∧
    (∀ (allowFrom : List String) (upds : List TgUpdate), allowFrom = [] →
        tgPollBatch allowFrom upds = []) := by
  refine ⟨tgHandleUpdate_drop, ?_⟩
  intro af upds h
  subst h
  unfold tgPollBatch
  rw [List.filterMap_eq_nil_iff]
  intro u hu
  exact tgHandleUpdate_drop [] u (Or.inl rfl)

/-- Witness for C5 at a concrete disallowed update. -/
theorem C5_witness :
    (["123"] = ([] : List String) ∨
        tgSenderId ⟨1, some ⟨some 999, 5, "hi"⟩⟩ ∉ ["123"]) ∧
    tgHandleUpdate ["123"] ⟨1, some ⟨some 999, 5, "hi"⟩⟩ = none :=
  ⟨Or.inr (by decide),
   C5_telegram_allowlist_denies.1 ["123"] ⟨1, some ⟨some 999, 5, "hi"⟩⟩ (Or.inr (by decide))⟩

/-- C7: with no usable tool call, the ranker first tries a strict JSON
parse of the whole (trimmed) content, then falls back to the bracketed
substring of the content; content `"Result: [1,0]"` over
`["buy milk", "call mom"]` yields the top-2 ranking
`["call mom", "buy milk"]`, the same content without a parsable array
falls back to `SimpleRanker`. -/
theorem C7_content_parse_order :
    llmRank (ProviderOutcome.ok ⟨"Result: [1,0]", false, []⟩) "query"
        [⟨"short", "buy milk", 0⟩, ⟨"short", "call mom", 1⟩] 2 =
      [⟨"short", "call mom", 1⟩, ⟨"short", "buy milk", 0⟩] ∧
    parseJsonInts (trimSpace "Result: [1,0]") = none ∧
    parseIndicesFromText "Result: [1,0]" = some [1, 0] ∧
    llmRank (ProviderOutcome.ok ⟨"[1,0]", false, []⟩) "query"
        [⟨"short", "buy milk", 0⟩, ⟨"short", "call mom", 1⟩] 2 =
      [⟨"short", "call mom", 1⟩, ⟨"short", "buy milk", 0⟩] ∧
    llmRank (ProviderOutcome.ok ⟨"no array here", false, []⟩) "query"
        [⟨"short", "buy milk", 0⟩, ⟨"short", "call mom", 1⟩] 2 =
      simpleRank "query" [⟨"short", "buy milk", 0⟩, ⟨"short", "call mom", 1⟩] 2 :=
  ⟨rfl, rfl, rfl, rfl, rfl⟩

/-- C8: any `AddShort` sequence followed by `Recent n` returns the texts
newest-first, at most `min n limit` of them (oldest dropped on overflow);
and mixing in `AddLong`, short items come before long items, newest-first
each, as on the concrete `AddLong L1; AddShort two; AddShort one` run. -/
theorem C8_memory_recent_newest_first :
    (∀ (limit : Int) (texts : List String) (n : Int),
      (recent (addShortSeq (newMemoryStore limit) 0 texts) n).map MemoryItem.text =
        texts.reverse.take (min n.toNat (newMemoryStore limit).limit) ∧
      (recent (addShortSeq (newMemoryStore limit) 0 texts) n).length ≤
        min n.toNat (newMemoryStore limit).limit) ∧
    recent (addShort (addShort (addLong (newMemoryStore 3) 0 "L1") 1 "two") 2 "one") 10 =
      [⟨"short", "one", 2⟩, ⟨"short", "two", 1⟩, ⟨"long", "L1", 0⟩] := by
  constructor
  · intro limit texts n
    obtain ⟨h1, h2, h3⟩ :=
      addShortSeq_spec texts (newMemoryStore limit) 0 (by simp [newMemoryStore])
    have hshort0 : (newMemoryStore limit).short = [] := rfl
    simp only [hshort0, List.map_nil, List.reverse_nil, List.append_nil] at h3
    have hmap : (recent (addShortSeq (newMemoryStore limit) 0 texts) n).map MemoryItem.text =
        texts.reverse.take (min n.toNat (newMemoryStore limit).limit) := by
      unfold recent
      by_cases hn : n ≤ 0
      · have h0 : n.toNat = 0 := Int.toNat_of_nonpos hn
        simp [hn, h0]
      · have h2' : (addShortSeq (newMemoryStore limit) 0 texts).long = [] := by
          rw [h2]; rfl
        simp only [if_neg hn, h2', List.reverse_nil, List.append_nil]
        rw [List.map_take, List.map_reverse, h3, List.take_take]
    refine ⟨hmap, ?_⟩
    have hlen := congrArg List.length hmap
    rw [List.length_map] at hlen
    rw [hlen, List.length_take]
    exact Nat.min_le_left _ _
  · rfl

/-- The retry loop sleeps at most once per remaining iteration. -/
theorem retryGo_sleeps_len :
    ∀ (fuel : Nat) (attempt : Nat) (outcomes : List Step) (prev : Option Step),
      (retryGo outcomes fuel attempt prev).2.length ≤ fuel := by
  intro fuel
  induction fuel with
  | zero =>
    intro attempt outcomes prev
    cases prev with
    | none => simp [retryGo]
    | some st => cases st <;> simp [retryGo]
  | succ f ih =>
    intro attempt outcomes prev
    have hpre : (if attempt = 0 then ([] : List Nat) else [sleepDelay attempt prev]).length ≤ 1 := by
      split <;> simp
    rw [retryGo]
    cases h : outcomes.getD attempt Step.netErr with
    | buildErr =>
      simp only [h]
      omega
    | netErr =>
      simp only [h, List.length_append]
      have hr2 := ih (attempt + 1) outcomes (some Step.netErr)
      omega
    | httpResp s ra =>
      simp only [h]
      by_cases hr : retryableStatusCode s
      · simp only [hr, if_true, List.length_append]
        have hr2 := ih (attempt + 1) outcomes (some (Step.httpResp s ra))
        omega
      · simp only [hr, Bool.false_eq_true, if_false]
        omega

/-- Every slept delay is capped at `maxDelay`. -/
theorem sleepDelay_le_max (attempt : Nat) (prev : Option Step) :
    sleepDelay attempt prev ≤ maxDelay := by
  have hb : ∀ n, backoffDelay n ≤ maxDelay := by
    intro n
    show (if maxDelay < baseDelay * 2 ^ n then maxDelay else baseDelay * 2 ^ n) ≤ maxDelay
    split <;> omega
  cases prev with
  | none => exact hb _
  | some st =>
    cases st with
    | buildErr => exact hb _
    | netErr => exact hb _
    | httpResp s ra =>
      by_cases hs : s = 429
      · subst hs
        show (let d0 := rateLimitBase * 2 ^ (attempt - 1);
              let d1 := if 0 < ra ∧ ra ≤ maxDelay then ra else d0;
              if maxDelay < d1 then maxDelay else d1) ≤ maxDelay
        simp only []
        split <;> split <;> omega
      · show (if s = 429 then _ else backoffDelay (attempt - 1)) ≤ maxDelay
        rw [if_neg hs]
        exact hb _

/-- Every delay the loop ever sleeps is ≤ `maxDelay`. -/
theorem retryGo_sleeps_le_max :
    ∀ (fuel : Nat) (attempt : Nat) (outcomes : List Step) (prev : Option Step) (d : Nat),
      d ∈ (retryGo outcomes fuel attempt prev).2 → d ≤ maxDelay := by
  intro fuel
  induction fuel with
  | zero =>
    intro attempt outcomes prev d hd
    exfalso
    cases prev with
    | none => simp [retryGo] at hd
    | some st => cases st <;> simp [retryGo] at hd
  | succ f ih =>
    intro attempt outcomes prev d hd
    rw [retryGo] at hd
    have hpre : ∀ x ∈ (if attempt = 0 then ([] : List Nat) else [sleepDelay attempt prev]),
        x ≤ maxDelay := by
      intro x hx
      by_cases h0 : attempt = 0
      · simp [h0] at hx
      · simp [h0] at hx
        subst hx
        exact sleepDelay_le_max attempt prev
    cases h : outcomes.getD attempt Step.netErr with
    | buildErr =>
      rw [h] at hd
      exact hpre d hd
    | netErr =>
      rw [h] at hd
      simp only [List.mem_append] at hd
      rcases hd with hd | hd
      · exact hpre d hd
      · exact ih (attempt + 1) outcomes (some Step.netErr) d hd
    | httpResp s ra =>
      rw [h] at hd
      by_cases hr : retryableStatusCode s
      · simp only [hr, if_true, List.mem_append] at hd
        rcases hd with hd | hd
        · exact hpre d hd
        · exact ih (attempt + 1) outcomes (some (Step.httpResp s ra)) d hd
      · simp only [hr, Bool.false_eq_true, if_false] at hd
        exact hpre d hd

/-- C9: `doWithRetry` retries only on network errors or retryable statuses
(a non-retryable response is returned at once with no sleep), performs at
most 3 retries, backs off exponentially from a 1s base (1s, 2s, 4s), uses
a 5s base for 429 (5s, 10s, 20s), honours a `Retry-After` of ≤ 60s on 429
and ignores a longer one, and caps every sleep at 60s.  Delays are in
nanoseconds. -/
theorem C9_retry_policy :
    (∀ (s ra : Nat) (rest : List Step), retryableStatusCode s = false →
      doWithRetry (Step.httpResp s ra :: rest) = (RetryResult.respReturn s ra, [])) ∧
    (∀ outcomes : List Step, (doWithRetry outcomes).2.length ≤ 3) ∧
    doWithRetry [Step.netErr, Step.netErr, Step.netErr, Step.netErr] =
      (RetryResult.errReturn, [1000000000, 2000000000, 4000000000]) ∧
    doWithRetry [Step.httpResp 429 0, Step.httpResp 429 0, Step.httpResp 429 0,
        Step.httpResp 429 0] =
      (RetryResult.respReturn 429 0, [5000000000, 10000000000, 20000000000]) ∧
    doWithRetry [Step.httpResp 429 30000000000, Step.httpResp 200 0] =
      (RetryResult.respReturn 200 0, [30000000000]) ∧
    doWithRetry [Step.httpResp 429 120000000000, Step.httpResp 200 0] =
      (RetryResult.respReturn 200 0, [5000000000]) ∧
    doWithRetry [Step.netErr, Step.httpResp 404 0] =
      (RetryResult.respReturn 404 0, [1000000000]) ∧
    (∀ (outcomes : List Step) (d : Nat), d ∈ (doWithRetry outcomes).2 → d ≤ 60000000000) := by
  refine ⟨?_, ?_, rfl, rfl, rfl, rfl, rfl, ?_⟩
  · intro s ra rest hs
    unfold doWithRetry
    rw [retryGo]
    simp [hs]
  · intro outcomes
    unfold doWithRetry
    rw [retryGo]
    cases h : outcomes.getD 0 Step.netErr with
    | buildErr => simp
    | netErr =>
      simp only [if_pos rfl, List.nil_append]
      exact retryGo_sleeps_len 3 1 outcomes (some Step.netErr)
    | httpResp s ra =>
      by_cases hr : retryableStatusCode s
      · simp only [hr, if_true, if_pos rfl, List.nil_append]
        exact retryGo_sleeps_len 3 1 outcomes (some (Step.httpResp s ra))
      · simp [hr]
  · intro outcomes d hd
    exact retryGo_sleeps_le_max (maxRetries + 1) 0 outcomes none d hd

/-- Witness for C9: a 404 is returned immediately with no retry sleep. -/
theorem C9_witness :
    retryableStatusCode 404 = false ∧
    doWithRetry [Step.httpResp 404 0] = (RetryResult.respReturn 404 0, []) :=
  ⟨by decide, C9_retry_policy.1 404 0 [] (by decide)⟩

/-- C10: for every text and every `maxLen > 0`, `splitMessage` returns
chunks whose in-order concatenation is exactly the original text (nothing
lost, duplicated or reordered) and whose lengths are all ≤ `maxLen`. -/
theorem C10_splitMessage_partition (text : List Char) (maxLen : Nat) (hm : 0 < maxLen) :
    (splitMessage text maxLen).flatten = text ∧
      ∀ ch ∈ splitMessage text maxLen, ch.length ≤ maxLen := by
  unfold splitMessage
  by_cases h : text.length ≤ maxLen
  · refine ⟨?_, ?_⟩ <;> simp [h]
  · simp only [if_neg h]
    exact splitLoop_spec maxLen hm text.length text (Nat.le_refl _)

/-- Witness for C10 on a concrete newline-bearing text. -/
theorem C10_witness :
    (splitMessage "ab\ncdef".toList 4).flatten = "ab\ncdef".toList ∧
      ∀ ch ∈ splitMessage "ab\ncdef".toList 4, ch.length ≤ 4 :=
  C10_splitMessage_partition "ab\ncdef".toList 4 (by decide)

/-- `SimpleRanker.Rank` returns exactly `min top len` items for a positive
`top`. -/
theorem simpleRank_length (q : String) (ms : List MemoryItem) (top : Int) (h : 0 < top) :
    (simpleRank q ms top).length = min top.toNat ms.length := by
  simp only [simpleRank]
  by_cases hc : top ≤ 0 ∨ (ms.length : Int) < top
  · have hlen : (ms.length : Int) < top := by
      rcases hc with hc1 | hc1
      · omega
      · exact hc1
    rw [if_pos hc]
    split
    · rw [List.length_take, List.length_reverse]
      omega
    · rw [List.length_map, List.length_take, List.length_mergeSort, List.length_map,
        List.enum_length]
      omega
  · rw [if_neg hc]
    push_neg at hc
    split
    · rw [List.length_take, List.length_reverse]
    · rw [List.length_map, List.length_take, List.length_mergeSort, List.length_map,
        List.enum_length]

/-- `SimpleRanker.Rank` over the full length is a permutation of the
memories. -/
theorem simpleRank_perm (q : String) (ms : List MemoryItem) :
    (simpleRank q ms (ms.length : Int)).Perm ms := by
  simp only [simpleRank]
  have htop : (if (ms.length : Int) ≤ 0 ∨ (ms.length : Int) < (ms.length : Int)
      then (ms.length : Int) else (ms.length : Int)) = (ms.length : Int) := by
    split <;> rfl
  rw [htop]
  have htn : ((ms.length : Int)).toNat = ms.length := Int.toNat_natCast ms.length
  split
  · rw [htn, List.take_of_length_le (by rw [List.length_reverse])]
    exact List.reverse_perm ms
  · rw [htn, List.take_of_length_le
      (by rw [List.length_mergeSort, List.length_map, List.enum_length])]
    refine List.Perm.trans (List.Perm.map _ (List.mergeSort_perm _ _)) ?_
    rw [List.map_map]
    show (ms.enum.map Prod.snd).Perm ms
    rw [List.enum_map_snd]

/-- C6 counterexample: two memories with the same `(kind, text)` but
different timestamps, provider content `[0]`, `top = 2`: `Rank` returns a
single item, not `min(top, len(memories)) = 2` — the `(kind, text)`
padding dedupe skips the duplicate. -/
theorem C6_counterexample :
    ¬ ((llmRank (ProviderOutcome.ok ⟨"[0]", false, []⟩) ""
        [⟨"short", "x", 0⟩, ⟨"short", "x", 1⟩] 2).length =
      min (2 : Nat) ([⟨"short", "x", 0⟩, (⟨"short", "x", 1⟩ : MemoryItem)]).length) := by
  decide

/-- One unfolding of the pad loop at positive fuel. -/
theorem padLoop_succ (top : Int) (f : Nat) (out fb : List MemoryItem) :
    padLoop top (f + 1) out fb =
      if top ≤ (out.length : Int) then out
      else
        match fb with
        | [] => out
        | m :: rest =>
          if out.any (fun s => s.text = m.text ∧ s.kind = m.kind) then padLoop top f out rest
          else padLoop top f (out ++ [m]) rest := rfl

/-- Pad-loop length: over memories with pairwise-distinct `(kind, text)`
keys, padding fills up to `top` or to the set of distinct items. -/
theorem padLoop_length (top : Int) (ms : List MemoryItem)
    (hkeys : (ms.map (fun m => (m.kind, m.text))).Nodup) :
    ∀ (fuel : Nat) (fb : List MemoryItem) (out : List MemoryItem),
      fb.length ≤ fuel →
      out.Nodup → (∀ m ∈ out, m ∈ ms) → (∀ m ∈ fb, m ∈ ms) →
      (out.length : Int) ≤ top →
      (padLoop top fuel out fb).length = min top.toNat (out ++ fb).toFinset.card := by
  intro fuel
  induction fuel with
  | zero =>
    intro fb out hf hnd hsub hfsub hle
    have hfb : fb = [] := List.eq_nil_of_length_eq_zero (Nat.le_zero.mp hf)
    subst hfb
    show out.length = _
    rw [List.append_nil, List.toFinset_card_of_nodup hnd]
    omega
  | succ f ih =>
    intro fb out hf hnd hsub hfsub hle
    rw [padLoop_succ]
    by_cases hfull : top ≤ (out.length : Int)
    · rw [if_pos hfull]
      have hcard : out.length ≤ (out ++ fb).toFinset.card := by
        rw [← List.toFinset_card_of_nodup hnd]
        refine Finset.card_le_card ?_
        intro x hx
        rw [List.mem_toFinset] at hx ⊢
        exact List.mem_append.mpr (Or.inl hx)
      omega
    · rw [if_neg hfull]
      cases fb with
      | nil =>
        show out.length = _
        rw [List.append_nil, List.toFinset_card_of_nodup hnd]
        omega
      | cons m rest =>
        show (if (out.any fun s => decide (s.text = m.text ∧ s.kind = m.kind)) = true
            then padLoop top f out rest else padLoop top f (out ++ [m]) rest).length = _
        simp only [List.length_cons] at hf
        by_cases hmatch : out.any (fun s => s.text = m.text ∧ s.kind = m.kind) = true
        · rw [if_pos hmatch]
          have hm : m ∈ out := by
            rw [List.any_eq_true] at hmatch
            obtain ⟨s, hs, hkey⟩ := hmatch
            simp only [decide_eq_true_eq] at hkey
            have hsm : s = m :=
              List.inj_on_of_nodup_map hkeys (hsub s hs) (hfsub m (by simp))
                (by simp [hkey.1, hkey.2])
            rw [← hsm]
            exact hs
          rw [ih rest out (by omega) hnd hsub (fun x hx => hfsub x (by simp [hx])) hle]
          congr 1
          rw [List.toFinset_append, List.toFinset_append, List.toFinset_cons]
          have habs : insert m (rest.toFinset) ∪ out.toFinset = rest.toFinset ∪ out.toFinset := by
            rw [Finset.insert_union, Finset.insert_eq_self]
            exact Finset.mem_union_right _ (List.mem_toFinset.mpr hm)
          rw [Finset.union_comm out.toFinset, Finset.union_comm out.toFinset, habs]
        · rw [if_neg hmatch]
          have hmnotin : m ∉ out := by
            intro hmem
            exact hmatch (List.any_eq_true.mpr ⟨m, hmem, by simp⟩)
          have hrec := ih rest (out ++ [m]) (by omega)
            (by simp [List.nodup_append, hnd, hmnotin])
            (by
              intro x hx
              rcases List.mem_append.mp hx with hx | hx
              · exact hsub x hx
              · simp at hx
                rw [hx]
                exact hfsub m (by simp))
            (fun x hx => hfsub x (by simp [hx]))
            (by simp only [List.length_append, List.length_cons, List.length_nil]; omega)
          rw [hrec]
          rw [List.append_assoc, List.singleton_append]

/-- One unfolding of the index-collection loop. -/
theorem collectIdxs_cons (ms : List MemoryItem) (top : Int) (i : Int) (rest : List Int)
    (out : List MemoryItem) (seen : List Int) :
    collectIdxs ms top (i :: rest) out seen =
      if i < 0 ∨ (ms.length : Int) ≤ i then collectIdxs ms top rest out seen
      else if seen.contains i then collectIdxs ms top rest out seen
      else if top ≤ (((out ++ [ms.getD i.toNat ⟨"", "", 0⟩]).length : Nat) : Int) then
        out ++ [ms.getD i.toNat ⟨"", "", 0⟩]
      else collectIdxs ms top rest (out ++ [ms.getD i.toNat ⟨"", "", 0⟩]) (i :: seen) := rfl

/-- The collection loop keeps the output duplicate-free, inside the
memories, and no longer than `top`. -/
theorem collect_spec (ms : List MemoryItem) (hnd : ms.Nodup) (top : Int) :
    ∀ (idxs : List Int) (out : List MemoryItem) (seen : List Int),
      out.Nodup → (∀ m ∈ out, m ∈ ms) → ((out.length : Int) < top) →
      (∀ m ∈ out, ∃ i : Int, i ∈ seen ∧ 0 ≤ i ∧ i < (ms.length : Int) ∧
          m = ms.getD i.toNat ⟨"", "", 0⟩) →
      (collectIdxs ms top idxs out seen).Nodup ∧
      (∀ m ∈ collectIdxs ms top idxs out seen, m ∈ ms) ∧
      ((collectIdxs ms top idxs out seen).length : Int) ≤ top := by
  intro idxs
  induction idxs with
  | nil =>
    intro out seen h1 h2 h3 h4
    refine ⟨h1, h2, ?_⟩
    rw [show collectIdxs ms top [] out seen = out from rfl]
    omega
  | cons i rest ih =>
    intro out seen h1 h2 h3 h4
    rw [collectIdxs_cons]
    by_cases hrange : i < 0 ∨ (ms.length : Int) ≤ i
    · rw [if_pos hrange]
      exact ih out seen h1 h2 h3 h4
    · rw [if_neg hrange]
      push_neg at hrange
      by_cases hseen : seen.contains i = true
      · rw [if_pos hseen]
        exact ih out seen h1 h2 h3 h4
      · rw [if_neg hseen]
        have hi : i.toNat < ms.length := by omega
        have hxmem : ms.getD i.toNat ⟨"", "", 0⟩ ∈ ms := by
          rw [List.getD_eq_getElem _ _ hi]
          exact List.getElem_mem hi
        have hxnot : ms.getD i.toNat ⟨"", "", 0⟩ ∉ out := by
          intro hmem
          obtain ⟨j, hjseen, hj0, hjlt, hjeq⟩ := h4 _ hmem
          have hjnat : j.toNat < ms.length := by omega
          have htn : i.toNat = j.toNat := by
            apply (List.Nodup.getElem_inj_iff hnd).mp
            rw [← List.getD_eq_getElem ms ⟨"", "", 0⟩ hi,
              ← List.getD_eq_getElem ms ⟨"", "", 0⟩ hjnat]
            exact hjeq
          have hij : i = j := by omega
          rw [hij] at hseen
          exact hseen (List.elem_iff.mpr hjseen)
        have hmemall : ∀ m ∈ out ++ [ms.getD i.toNat ⟨"", "", 0⟩], m ∈ ms := by
          intro m hm
          rcases List.mem_append.mp hm with hm | hm
          · exact h2 m hm
          · simp only [List.mem_singleton] at hm
            rw [hm]
            exact hxmem
        have hnodup2 : (out ++ [ms.getD i.toNat ⟨"", "", 0⟩]).Nodup := by
          simp only [List.nodup_append, List.nodup_cons, List.not_mem_nil, not_false_iff,
            List.nodup_nil, true_and, and_true]
          refine ⟨h1, ?_⟩
          intro x hx hx1
          simp only [List.mem_singleton] at hx1
          rw [hx1] at hx
          exact hxnot hx
        by_cases hfull2 : top ≤ (((out ++ [ms.getD i.toNat ⟨"", "", 0⟩]).length : Nat) : Int)
        · rw [if_pos hfull2]
          refine ⟨hnodup2, hmemall, ?_⟩
          simp only [List.length_append, List.length_cons, List.length_nil]
          omega
        · rw [if_neg hfull2]
          refine ih (out ++ [ms.getD i.toNat ⟨"", "", 0⟩]) (i :: seen) hnodup2 hmemall ?_ ?_
          · simp only [List.length_append, List.length_cons, List.length_nil] at hfull2 ⊢
            omega
          · intro m hm
            rcases List.mem_append.mp hm with hm | hm
            · obtain ⟨j, hjseen, hj0, hjlt, hjeq⟩ := h4 m hm
              exact ⟨j, by simp [hjseen], hj0, hjlt, hjeq⟩
            · simp only [List.mem_singleton] at hm
              exact ⟨i, by simp, by omega, by omega, hm⟩

/-- Every branch of `Rank` past the guard returns either the fallback
ranking or a built-and-padded ranking. -/
theorem llmRank_cases (outcome : ProviderOutcome) (q : String) (ms : List MemoryItem)
    (top : Int) (h0 : ¬ (ms = [] ∨ top ≤ 0)) :
    llmRank outcome q ms top = simpleRank q ms top ∨
    ∃ idxs, llmRank outcome q ms top = buildFromIdxs q ms top idxs := by
  unfold llmRank
  rw [if_neg h0]
  cases outcome with
  | err => exact Or.inl rfl
  | ok resp =>
    cases h1 : (if resp.hasToolCalls ∧ resp.toolCalls ≠ [] then firstToolIdxs resp.toolCalls
        else none) with
    | some idxs =>
      simp only [h1]
      exact Or.inr ⟨idxs, rfl⟩
    | none =>
      simp only [h1]
      cases h2 : parseJsonInts (trimSpace resp.content) with
      | some idxs =>
        simp only [h2]
        exact Or.inr ⟨idxs, rfl⟩
      | none =>
        simp only [h2]
        cases h3 : parseIndicesFromText (trimSpace resp.content) with
        | some idxs =>
          simp only [h3]
          exact Or.inr ⟨idxs, rfl⟩
        | none =>
          simp only [h3]
          exact Or.inl trivial

/-- Length of a built-and-padded ranking over distinct-keyed memories. -/
theorem buildFromIdxs_length (q : String) (ms : List MemoryItem) (top : Int)
    (idxs : List Int) (hkeys : (ms.map (fun m => (m.kind, m.text))).Nodup)
    (htop : 0 < top) :
    (buildFromIdxs q ms top idxs).length = min top.toNat ms.length := by
  have hnd : ms.Nodup := List.Nodup.of_map _ hkeys
  obtain ⟨ho1, ho2, ho3⟩ := collect_spec ms hnd top idxs [] []
    (by simp) (by simp) (by simpa using htop) (by simp)
  have hfb := simpleRank_perm q ms
  have hfblen : (simpleRank q ms (ms.length : Int)).length = ms.length := hfb.length_eq
  unfold buildFromIdxs
  rw [padLoop_length top ms hkeys ms.length (simpleRank q ms (ms.length : Int))
    (collectIdxs ms top idxs [] []) (by omega) ho1 ho2
    (fun m hm => hfb.mem_iff.mp hm) ho3]
  congr 1
  have hset : ((collectIdxs ms top idxs [] []) ++ simpleRank q ms (ms.length : Int)).toFinset
      = ms.toFinset := by
    rw [List.toFinset_append]
    apply Finset.Subset.antisymm
    · apply Finset.union_subset
      · intro x hx
        rw [List.mem_toFinset] at hx ⊢
        exact ho2 x hx
      · intro x hx
        rw [List.mem_toFinset] at hx ⊢
        exact hfb.mem_iff.mp hx
    · intro x hx
      apply Finset.mem_union_right
      rw [List.mem_toFinset] at hx ⊢
      exact hfb.mem_iff.mpr hx
  rw [hset, List.toFinset_card_of_nodup hnd]

/-- C6 (amended): `LLMMemoryRanker.Rank` returns exactly
`min(top, len(memories))` items for every provider outcome whenever the
`(kind, text)` pairs of the memories are pairwise distinct (with duplicate
pairs the padding dedupe can return fewer, see the counterexample); on a
provider error, or a response with no usable tool call and unparsable
content, it returns exactly `SimpleRanker.Rank`, whose length is always
`min(top, len(memories))`. -/
theorem C6_ranker_length_amended :
    (∀ (outcome : ProviderOutcome) (query : String) (memories : List MemoryItem) (top : Int),
      0 < top → memories ≠ [] →
      (memories.map (fun m => (m.kind, m.text))).Nodup →
      (llmRank outcome query memories top).length = min top.toNat memories.length) ∧
    (∀ (query : String) (memories : List MemoryItem) (top : Int),
      0 < top → memories ≠ [] →
      llmRank ProviderOutcome.err query memories top = simpleRank query memories top) ∧
    (∀ (query : String) (memories : List MemoryItem) (top : Int) (content : String)
      (hasTC : Bool) (tcs : List ToolCall),
      0 < top → memories ≠ [] →
      (if hasTC ∧ tcs ≠ [] then firstToolIdxs tcs else none) = none →
      parseJsonInts (trimSpace content) = none →
      parseIndicesFromText (trimSpace content) = none →
      llmRank (ProviderOutcome.ok ⟨content, hasTC, tcs⟩) query memories top =
        simpleRank query memories top) ∧
    (∀ (query : String) (memories : List MemoryItem) (top : Int),
      0 < top →
      (simpleRank query memories top).length = min top.toNat memories.length) := by
  refine ⟨?_, ?_, ?_, fun q ms top ht => simpleRank_length q ms top ht⟩
  · intro o q ms top ht hne hkeys
    have h0 : ¬ (ms = [] ∨ top ≤ 0) := by
      rintro (h | h)
      · exact hne h
      · omega
    rcases llmRank_cases o q ms top h0 with hcase | ⟨idxs, hcase⟩
    · rw [hcase]
      exact simpleRank_length q ms top ht
    · rw [hcase]
      exact buildFromIdxs_length q ms top idxs hkeys ht
  · intro q ms top ht hne
    have h0 : ¬ (ms = [] ∨ top ≤ 0) := by
      rintro (h | h)
      · exact hne h
      · omega
    unfold llmRank
    rw [if_neg h0]
  · intro q ms top content hasTC tcs ht hne hg h2 h3
    have h0 : ¬ (ms = [] ∨ top ≤ 0) := by
      rintro (h | h)
      · exact hne h
      · omega
    unfold llmRank
    rw [if_neg h0]
    simp only [hg, h2, h3]

/-- Witness for the amended C6 at distinct-keyed memories under a partial
index response. -/
theorem C6_witness :
    (0 : Int) < 2 ∧
    ([⟨"short", "buy milk", 0⟩, (⟨"short", "call mom", 1⟩ : MemoryItem)] ≠ ([] : List MemoryItem)) ∧
    (llmRank (ProviderOutcome.ok ⟨"[0]", false, []⟩) ""
        [⟨"short", "buy milk", 0⟩, ⟨"short", "call mom", 1⟩] 2).length =
      min (2 : Int).toNat
        ([⟨"short", "buy milk", 0⟩, (⟨"short", "call mom", 1⟩ : MemoryItem)] : List MemoryItem).length :=
  ⟨by decide, by decide,
   C6_ranker_length_amended.1 (ProviderOutcome.ok ⟨"[0]", false, []⟩) ""
     [⟨"short", "buy milk", 0⟩, ⟨"short", "call mom", 1⟩] 2 (by decide) (by decide) (by decide)⟩

end Claims

end Picobot
